import Mathlib

/-!
Shallow embedding of the HierDiff bitmap MVCC controller
(`HierDiffController.h`, struct `CompressedBitmap`, struct `BitmapRef`,
class `BitmapController`) together with proofs checking the claims of
the natural-language specification against it.

Bitmap buffers (`uint8_t *` of `BITMAP_SIZE` bytes) are modelled as
functions `Nat → Nat`; `uint16_t *` payload arrays are modelled as
`List Nat`.  A null payload pointer (`compressed_bitmap == nullptr`,
the placeholder state) is modelled as `Option.none`; where the source
would dereference a null payload (undefined behaviour), the model
totalises the read as a stream of zero words via `Option.getD` /
`List.getD`, which matches the "decoded zero" reading of the spec.
All modelling is sequential: each theorem is about states produced by
a sequence of completed calls.
-/

set_option maxRecDepth 2000

/-- Size of one visibility bitmap in bytes (`const int BITMAP_SIZE = 7500`). -/
def BITMAP_SIZE : Nat := 7500

/-- Maximum number of delta nodes per group (`const int MAX_COMPRESS_NUM = 9`);
the spec calls this constant `MAX_GROUP_SIZE`. -/
def MAX_COMPRESS_NUM : Nat := 9

/-- Bytewise XOR of two bitmaps (`BitmapController::xor_function`). -/
def xor_function (a b : Nat → Nat) : Nat → Nat := fun i => a i ^^^ b i

/-- Number of set bits of one byte, counted exactly as the source does:
for `j = 0..7`, test the mask `1 <<< (7 - j)`. -/
def popcount_byte (t : Nat) : Nat :=
  ((List.range 8).filter (fun j => t.testBit (7 - j))).length

/-- Total number of set bits of a `BITMAP_SIZE`-byte buffer: the counting
loop of `BitmapController::compress_bitmap`. -/
def total_cnt_of (temp : Nat → Nat) : Nat :=
  ((List.range BITMAP_SIZE).map (fun i => popcount_byte (temp i))).sum

/-- Bit positions contributed by byte `i` with value `t`, in the order the
source emits them: position `i*8 + j` for each set mask `1 <<< (7 - j)`. -/
def bytePositions (i t : Nat) : List Nat :=
  (List.range 8).filterMap (fun j => if t.testBit (7 - j) then some (i * 8 + j) else none)

/-- All differing bit positions of a difference buffer, in emission order
(the position-emitting loop of `BitmapController::compress_bitmap`). -/
def diffPositions (temp : Nat → Nat) : List Nat :=
  ((List.range BITMAP_SIZE).map (fun i => bytePositions i (temp i))).join

/-- Dense payload: the full original image packed into 16-bit words,
byte `2*i` in the low byte and byte `2*i+1` in the high byte. -/
def densePack (original : Nat → Nat) : List Nat :=
  (List.range (BITMAP_SIZE / 2)).map
    (fun i => original (2 * i) ||| (original (2 * i + 1)) <<< 8)

/-- Differential encoder (`BitmapController::compress_bitmap`).  Returns the
payload together with the `is_compressed` flag: `false` means dense (full
packed original), `true` means sparse (count followed by the ascending
positions of the set bits of `original XOR complete`). -/
def compress_bitmap (original complete : Nat → Nat) : List Nat × Bool :=
  let temp := xor_function original complete
  if BITMAP_SIZE / 16 ≤ total_cnt_of temp then
    (densePack original, false)
  else
    (total_cnt_of temp :: diffPositions temp, true)

/-- Functional update of one byte of a buffer. -/
def setByte (f : Nat → Nat) (k v : Nat) : Nat → Nat :=
  fun i => if i = k then v else f i

/-- XOR a value into one byte of a buffer (the `^=` of the source). -/
def xorByte (f : Nat → Nat) (k v : Nat) : Nat → Nat :=
  setByte f k (f k ^^^ v)

/-- One iteration of the dense decoding loop of
`BitmapController::decompress_bitmap`: XOR word `i` of the payload into
bytes `2*i` and `2*i+1`. -/
def denseStep (compressed : List Nat) (res : Nat → Nat) (i : Nat) : Nat → Nat :=
  xorByte (xorByte res (2 * i) (compressed.getD i 0 % 256))
    (2 * i + 1) (compressed.getD i 0 / 256 % 256)

/-- One iteration of the sparse decoding loop of
`BitmapController::decompress_bitmap`: toggle the listed bit position
(position `p` flips bit `7 - p % 8` of byte `p / 8`). -/
def sparseStep (compressed : List Nat) (res : Nat → Nat) (i : Nat) : Nat → Nat :=
  let pos := compressed.getD (i + 1) 0
  xorByte res (pos / 8) (1 <<< (7 - pos % 8))

/-- Decoder (`BitmapController::decompress_bitmap`).  Starts from a copy of
the reference (`memcpy`), then XORs the dense payload in, or toggles each
listed sparse position. -/
def decompress_bitmap (complete : Nat → Nat) (compressed : List Nat)
    (is_compressed : Bool) : Nat → Nat :=
  if is_compressed = false then
    (List.range (BITMAP_SIZE / 2)).foldl (denseStep compressed) complete
  else
    (List.range (compressed.getD 0 0)).foldl (sparseStep compressed) complete

/-- Two-finger merge of two ascending arrays, mirroring the loop of
`BitmapController::union_sorted_array`: smaller element first, equal
elements collapsed to one, then the tails are drained. -/
def merge : List Nat → List Nat → List Nat
  | [], b => b
  | x :: xs, [] => x :: xs
  | x :: xs, y :: ys =>
    if x < y then x :: merge xs (y :: ys)
    else if y < x then y :: merge (x :: xs) ys
    else x :: merge xs ys

/-- Sorted-array union (`BitmapController::union_sorted_array`).  Slot 0 of
each operand holds its element count; the result replaces the first operand
with the merged count followed by the merged data.  The source reads
exactly `a[0]` data elements from `a`, hence the `take`. -/
def union_sorted_array (a b : List Nat) : List Nat :=
  let a_size := a.getD 0 0
  let b_size := b.getD 0 0
  let a_data := (a.drop 1).take a_size
  let b_data := (b.drop 1).take b_size
  let t := merge a_data b_data
  t.length :: t

/-- One differential version node (`struct CompressedBitmap`).  A `none`
payload is the placeholder state (null `compressed_bitmap` pointer). -/
structure CompressedBitmap where
  bitmap_csn : Int
  compressed_bitmap : Option (List Nat)
  is_compressed : Bool

instance : Inhabited CompressedBitmap := ⟨⟨0, none, false⟩⟩

/-- One group (`struct BitmapRef`): reference bitmap, CSN range, version
chain newest-first. -/
structure BitmapRef where
  bitmap_cnt : Nat
  csn_range : Int × Int
  complete_bitmap : Nat → Nat
  chain : List CompressedBitmap

instance : Inhabited BitmapRef := ⟨⟨0, (0, 0), fun _ => 0, []⟩⟩

/-- Controller state (`class BitmapController`): chain of groups newest
first, plus the head-group fill counter. -/
structure CState where
  refs : List BitmapRef
  head_bitmap_cnt : Nat

/-- Constructor state: no groups, `head_bitmap_cnt = 9`, so the first insert
opens a group. -/
def initState : CState := { refs := [], head_bitmap_cnt := 9 }

/-- Stage 1 (`BitmapController::insert_null`).  At the cap, open a new group
whose reference is a copy of the image and whose single delta is a
zero-difference sparse payload; otherwise prepend a placeholder to the head
group.  The returned handle names the target by stable indices counted from
the oldest end: `(group index from oldest, node index from oldest)`; the
group-opening path returns no handle (the source leaves the caller's
pointers null).  The `s.refs = []` non-create case is the source's null
dereference and is unreachable from `initState`; the model returns the
state unchanged there. -/
def insert_null (s : CState) (new_csn : Int) (original : Nat → Nat) :
    CState × Option (Nat × Nat) :=
  if s.head_bitmap_cnt = MAX_COMPRESS_NUM then
    let node : CompressedBitmap :=
      { bitmap_csn := new_csn, compressed_bitmap := some [0], is_compressed := true }
    let g : BitmapRef :=
      { bitmap_cnt := 1, csn_range := (new_csn, new_csn),
        complete_bitmap := original, chain := [node] }
    ({ refs := g :: s.refs, head_bitmap_cnt := 1 }, none)
  else
    match s.refs with
    | [] => (s, none)
    | g :: rest =>
      let node : CompressedBitmap :=
        { bitmap_csn := new_csn, compressed_bitmap := none, is_compressed := false }
      let g2 : BitmapRef := { g with chain := node :: g.chain }
      ({ refs := g2 :: rest, head_bitmap_cnt := s.head_bitmap_cnt + 1 },
        some (s.refs.length - 1, g.chain.length))

/-- Install the freshly compressed payload into the handled node
(`bitmap->compressed_bitmap = compress_bitmap(...)` plus the
`is_compressed` out-parameter). -/
def install_node (ch : List CompressedBitmap) (pos : Nat)
    (payload : List Nat) (isc : Bool) : List CompressedBitmap :=
  ch.set pos { ch.getD pos default with
               compressed_bitmap := some payload, is_compressed := isc }

/-- The scanning loop of `BitmapController::insert_bitmap_content`: walk the
chain from the head down to (excluding) the handled node, overwriting
`(temp_csn, start_compress_point)` at every node — a placeholder resets
them to `(-1, null)`, a materialized node records its csn and position. -/
def walk_chain : List CompressedBitmap → Nat → Int × Option Nat → Int × Option Nat
  | [], _, acc => acc
  | nb :: rest, i, _ =>
    walk_chain rest (i + 1)
      (match nb.compressed_bitmap with
       | none => (-1, none)
       | some _ => (nb.bitmap_csn, some i))

/-- One step of the propagation loop: replace the payload at chain index
`st + k` by its sorted-array union with the new payload.  The source does
not test the encoding tag or the placeholder state here. -/
def propagate_step (payload : List Nat) (st : Nat)
    (ch : List CompressedBitmap) (k : Nat) : List CompressedBitmap :=
  let i := st + k
  let d := ch.getD i default
  let d2 : CompressedBitmap :=
    { d with compressed_bitmap := some (union_sorted_array (d.compressed_bitmap.getD []) payload) }
  ch.set i d2

/-- The propagation loop of `BitmapController::insert_bitmap_content`:
from `start_compress_point` (index `st`) down to, but excluding, the
handled node (index `pos`). -/
def propagate (payload : List Nat) (ch : List CompressedBitmap)
    (st pos : Nat) : List CompressedBitmap :=
  (List.range (pos - st)).foldl (propagate_step payload st) ch

/-- Chain contents after the propagation phase: install the payload at
chain index `pos`, scan, and if the scan ended on a materialized node run
the propagation loop from it down to (excluding) `pos`. -/
def chain_after (ch : List CompressedBitmap) (pos : Nat)
    (payload : List Nat) (isc : Bool) : List CompressedBitmap :=
  let chain1 := install_node ch pos payload isc
  let w := walk_chain (chain1.take pos) 0 (-1, none)
  match w.2 with
  | none => chain1
  | some st => propagate payload chain1 st pos

/-- Per-group body of `BitmapController::insert_bitmap_content`: compress
against the group reference, install the payload in the node addressed by
`ni` (index from the oldest end), scan the chain, propagate, increment
`bitmap_cnt` and advance `csn_range.second` to `max(old, temp_csn)`, where
a scan result of `-1` is replaced by the handled node's own csn. -/
def materialize_group (g : BitmapRef) (ni : Nat) (original : Nat → Nat) : BitmapRef :=
  let pos := g.chain.length - 1 - ni
  let pr := compress_bitmap original g.complete_bitmap
  let chain1 := install_node g.chain pos pr.1 pr.2
  let w := walk_chain (chain1.take pos) 0 (-1, none)
  let tc := if w.1 = -1 then (chain1.getD pos default).bitmap_csn else w.1
  { g with bitmap_cnt := g.bitmap_cnt + 1,
           chain := chain_after g.chain pos pr.1 pr.2,
           csn_range := (g.csn_range.1, max g.csn_range.2 tc) }

/-- Stages 2 and 3 (`BitmapController::insert_bitmap_content`): resolve the
handle and materialize inside the group.  An unresolvable handle leaves the
state unchanged (the source would dereference an invalid pointer). -/
def insert_bitmap_content (s : CState) (gi ni : Nat) (original : Nat → Nat) : CState :=
  match s.refs.get? (s.refs.length - 1 - gi) with
  | none => s
  | some g =>
    { s with refs := s.refs.set (s.refs.length - 1 - gi) (materialize_group g ni original) }

/-- The group-routing loop of `BitmapController::get_bitmap`: below the
range, advance to the next older group; above the range, fail; otherwise
stop at this group. -/
def find_ref : List BitmapRef → Int → Option BitmapRef
  | [], _ => none
  | g :: rest, r =>
    if r < g.csn_range.1 then find_ref rest r
    else if g.csn_range.2 < r then none
    else some g

/-- The chain-scanning loop of `BitmapController::get_bitmap`: first node
whose csn matches. -/
def find_node : List CompressedBitmap → Int → Option CompressedBitmap
  | [], _ => none
  | nb :: rest, r => if r = nb.bitmap_csn then some nb else find_node rest r

/-- Snapshot read (`BitmapController::get_bitmap`).  Returns the flag and
the final contents of the caller's output buffer; the buffer is written
only on the successful path (the source writes it only inside
`decompress_bitmap`).  Note that the source decompresses a matching node
unconditionally — placeholders included; a placeholder's null payload is
read as zero words by the model. -/
def get_bitmap (s : CState) (require_csn : Int) (out : Nat → Nat) :
    Bool × (Nat → Nat) :=
  match find_ref s.refs require_csn with
  | none => (false, out)
  | some g =>
    match find_node g.chain require_csn with
    | none => (false, out)
    | some nb =>
      (true, decompress_bitmap g.complete_bitmap
        (nb.compressed_bitmap.getD []) nb.is_compressed)

/-- States reachable from the constructor state by any sequence of
completed `insert_null` and `insert_bitmap_content` calls (reads do not
change the state). -/
inductive Reachable : CState → Prop where
  | init : Reachable initState
  | step_null (s : CState) (c : Int) (B : Nat → Nat) :
      Reachable s → Reachable (insert_null s c B).1
  | step_content (s : CState) (gi ni : Nat) (B : Nat → Nat) :
      Reachable s → Reachable (insert_bitmap_content s gi ni B)

/-- All-zero bitmap used in the concrete traces. -/
def ZB : Nat → Nat := fun _ => 0

/-- All-ones bitmap (every byte `0xFF`) used in the concrete traces. -/
def FB : Nat → Nat := fun _ => 255

/-- Bitmap with exactly 468 set bits: bytes `0..116` are `0x0F`
(4 set bits each), the rest zero. -/
def B468 : Nat → Nat := fun i => if i < 117 then 15 else 0

/-- Trace for the reconstruction counterexample: open a group with the
all-ones image at CSN 0. -/
def u1 : CState := (insert_null initState 0 FB).1

/-- Continue the trace: placeholder for CSN 1 with the all-zero image. -/
def u2 : CState := (insert_null u1 1 ZB).1

/-- Complete the trace: materialize CSN 1 (dense payload, since the image
differs from the reference in every bit). -/
def u3 : CState := insert_bitmap_content u2 0 1 ZB

/-- Trace for the placeholder-visibility counterexample: open a group with
the all-zero image at CSN 0. -/
def t1 : CState := (insert_null initState 0 ZB).1

/-- Continue the trace: placeholder for CSN 1. -/
def t2 : CState := (insert_null t1 1 ZB).1

/-- Continue the trace: placeholder for CSN 2. -/
def t3 : CState := (insert_null t2 2 ZB).1

/-- Complete the trace: materialize CSN 2 while CSN 1 is still a
placeholder; this advances `csn_range.second` to 2, past the
unmaterialized CSN 1. -/
def t4 : CState := insert_bitmap_content t3 0 2 ZB

/-- Roll-over trace: nine placeholders fill a group to the cap. -/
def r0 : CState := (insert_null initState 0 ZB).1

/-- Roll-over trace, CSN 1. -/
def r1 : CState := (insert_null r0 1 ZB).1

/-- Roll-over trace, CSN 2. -/
def r2 : CState := (insert_null r1 2 ZB).1

/-- Roll-over trace, CSN 3. -/
def r3 : CState := (insert_null r2 3 ZB).1

/-- Roll-over trace, CSN 4. -/
def r4 : CState := (insert_null r3 4 ZB).1

/-- Roll-over trace, CSN 5. -/
def r5 : CState := (insert_null r4 5 ZB).1

/-- Roll-over trace, CSN 6. -/
def r6 : CState := (insert_null r5 6 ZB).1

/-- Roll-over trace, CSN 7. -/
def r7 : CState := (insert_null r6 7 ZB).1

/-- Roll-over trace, CSN 8: the head group now holds 9 delta nodes. -/
def r8 : CState := (insert_null r7 8 ZB).1

/-- Group of a state addressed by its stable index counted from the oldest
end of the group chain (groups are only ever prepended). -/
def groupFromOld (s : CState) (i : Nat) : BitmapRef :=
  s.refs.getD (s.refs.length - 1 - i) default

/-- Candidate value with which `insert_bitmap_content` advances
`csn_range.second`, expressed over the chain as it is before the call:
the handled node's own csn if it sits at the head of the chain or the node
immediately before it (the oldest of its newer siblings) is a placeholder
or carries csn `-1`; otherwise that preceding node's csn. -/
def hi_candidate (ch : List CompressedBitmap) (pos : Nat) : Int :=
  if pos = 0 then (ch.getD pos default).bitmap_csn
  else
    match (ch.getD (pos - 1) default).compressed_bitmap with
    | none => (ch.getD pos default).bitmap_csn
    | some _ =>
      if (ch.getD (pos - 1) default).bitmap_csn = -1 then
        (ch.getD pos default).bitmap_csn
      else (ch.getD (pos - 1) default).bitmap_csn

/-- Inductive invariant (CapInv) for the group-cap argument: the head counter is at
most the cap, it equals the head group's chain length whenever a group
exists, it reads 9 when no group exists yet, and every group's chain is
within the cap. -/
def CapInv (s : CState) : Prop :=
  s.head_bitmap_cnt ≤ MAX_COMPRESS_NUM ∧
  (s.refs = [] → s.head_bitmap_cnt = MAX_COMPRESS_NUM) ∧
  (∀ g ∈ s.refs, g.chain.length ≤ MAX_COMPRESS_NUM) ∧
  (∀ g rest, s.refs = g :: rest → g.chain.length = s.head_bitmap_cnt)

/-! Pointwise characterization of the byte-store operations and of the
dense decoding loop. -/

theorem setByte_apply (f : Nat → Nat) (k v i : Nat) :
    setByte f k v i = if i = k then v else f i := rfl

theorem xorByte_apply (f : Nat → Nat) (k v i : Nat) :
    xorByte f k v i = if i = k then f k ^^^ v else f i := rfl

theorem denseStep_apply (c : List Nat) (acc : Nat → Nat) (n k : Nat) :
    denseStep c acc n k =
      if k = 2 * n + 1 then acc k ^^^ c.getD n 0 / 256 % 256
      else if k = 2 * n then acc k ^^^ c.getD n 0 % 256
      else acc k := by
  have hne : 2 * n + 1 ≠ 2 * n := by omega
  by_cases h1 : k = 2 * n + 1
  · subst h1
    simp [denseStep, xorByte_apply, setByte_apply, hne]
  · by_cases h2 : k = 2 * n
    · subst h2
      simp [denseStep, xorByte_apply, setByte_apply, h1, hne]
    · simp [denseStep, xorByte_apply, setByte_apply, h1, h2]

theorem foldl_denseStep_apply (c : List Nat) (res : Nat → Nat) (n k : Nat) :
    ((List.range n).foldl (denseStep c) res) k =
      if k < 2 * n then
        res k ^^^ (if k % 2 = 0 then c.getD (k / 2) 0 % 256
                   else c.getD (k / 2) 0 / 256 % 256)
      else res k := by
  induction n with
  | zero => simp
  | succ n ih =>
    rw [List.range_succ, List.foldl_append, List.foldl_cons, List.foldl_nil,
      denseStep_apply]
    by_cases h1 : k = 2 * n + 1
    · subst h1
      rw [if_pos rfl, ih, if_neg (by omega), if_pos (by omega)]
      have hodd : (2 * n + 1) % 2 = 1 := by omega
      have hdiv : (2 * n + 1) / 2 = n := by omega
      rw [if_neg (by omega), hdiv]
    · rw [if_neg h1]
      by_cases h2 : k = 2 * n
      · subst h2
        rw [if_pos rfl, ih, if_neg (by omega), if_pos (by omega)]
        have heven : 2 * n % 2 = 0 := by omega
        have hdiv : 2 * n / 2 = n := by omega
        rw [if_pos heven, hdiv]
      · rw [if_neg h2, ih]
        by_cases h3 : k < 2 * n
        · rw [if_pos h3, if_pos (show k < 2 * (n + 1) by omega)]
        · rw [if_neg h3, if_neg (show ¬ k < 2 * (n + 1) by omega)]

theorem decompress_dense_apply (complete : Nat → Nat) (c : List Nat) (k : Nat)
    (hk : k < BITMAP_SIZE) :
    decompress_bitmap complete c false k =
      complete k ^^^ (if k % 2 = 0 then c.getD (k / 2) 0 % 256
                      else c.getD (k / 2) 0 / 256 % 256) := by
  unfold decompress_bitmap
  rw [if_pos rfl, foldl_denseStep_apply, if_pos]
  have : BITMAP_SIZE = 7500 := rfl
  omega

theorem decompress_sparse_count_zero (complete : Nat → Nat) (c : List Nat)
    (h0 : c.getD 0 0 = 0) :
    decompress_bitmap complete c true = complete := by
  unfold decompress_bitmap
  rw [if_neg (by simp), h0]
  simp

/-! Evaluation of the encoder on constant bitmaps. -/

theorem sum_map_range_const (n c : Nat) :
    ((List.range n).map (fun _ => c)).sum = n * c := by
  induction n with
  | zero => simp
  | succ n ih =>
    rw [List.range_succ, List.map_append, List.sum_append]
    simp [ih, Nat.succ_mul]

theorem total_cnt_const (c : Nat) :
    total_cnt_of (fun _ => c) = BITMAP_SIZE * popcount_byte c :=
  sum_map_range_const BITMAP_SIZE (popcount_byte c)

theorem popcount_byte_255 : popcount_byte 255 = 8 := by decide

theorem popcount_byte_0 : popcount_byte 0 = 0 := by decide

theorem bytePositions_zero (i : Nat) : bytePositions i 0 = [] := by
  simp [bytePositions, Nat.zero_testBit]

theorem diffPositions_zero : diffPositions (fun _ => 0) = [] := by
  unfold diffPositions
  rw [List.join_eq_nil_iff]
  intro l hl
  rcases List.mem_map.mp hl with ⟨i, _, rfl⟩
  exact bytePositions_zero i

theorem compress_eq_dense (o c : Nat → Nat)
    (h : BITMAP_SIZE / 16 ≤ total_cnt_of (xor_function o c)) :
    compress_bitmap o c = (densePack o, false) := by
  simp only [compress_bitmap]
  rw [if_pos h]

theorem compress_eq_sparse (o c : Nat → Nat)
    (h : total_cnt_of (xor_function o c) < BITMAP_SIZE / 16) :
    compress_bitmap o c =
      (total_cnt_of (xor_function o c) :: diffPositions (xor_function o c), true) := by
  simp only [compress_bitmap]
  rw [if_neg (by omega)]

theorem xor_ZB_ZB : xor_function ZB ZB = fun _ => 0 := by
  funext i
  simp [xor_function, ZB]

theorem xor_ZB_FB : xor_function ZB FB = fun _ => 255 := by
  funext i
  simp [xor_function, ZB, FB]

theorem compress_zero_zero : compress_bitmap ZB ZB = ([0], true) := by
  rw [compress_eq_sparse ZB ZB
      (by rw [xor_ZB_ZB, total_cnt_const, popcount_byte_0]; norm_num [BITMAP_SIZE]),
    xor_ZB_ZB, total_cnt_const, popcount_byte_0, diffPositions_zero]
  norm_num

theorem compress_zero_ff : compress_bitmap ZB FB = (densePack ZB, false) :=
  compress_eq_dense ZB FB
    (by rw [xor_ZB_FB, total_cnt_const, popcount_byte_255]; norm_num [BITMAP_SIZE])

theorem densePack_getD (orig : Nat → Nat) (n : Nat) (h : n < BITMAP_SIZE / 2) :
    (densePack orig).getD n 0 = (orig (2 * n) ||| orig (2 * n + 1) <<< 8) := by
  unfold densePack
  rw [List.getD_eq_get?, List.get?_map, List.get?_range h]
  rfl

/-! Claim C2 (round-trip of the codec).  The sparse decoder toggles the
recorded difference positions onto the reference, but the dense encoder
stores the original image while the dense decoder XORs the payload against
the reference, so the dense round-trip yields `reference XOR original`
instead of the original whenever the reference is not all-zero. -/

/-- C2: the round-trip `decompress(R, compress(B, R))` does NOT reproduce
`B` on the dense path.  With reference `R = 0xFF...` and image `B = 0...`,
the encoder chooses dense (every bit differs) and the decoder returns byte
`0xFF` at index 0 where `B` has `0x00`: the code contradicts the spec's
round-trip property at this input. -/
theorem C2_roundtrip_fails_dense :
    (compress_bitmap ZB FB).2 = false ∧
    decompress_bitmap FB (compress_bitmap ZB FB).1 (compress_bitmap ZB FB).2 0 ≠ ZB 0 := by
  rw [compress_zero_ff]
  refine ⟨rfl, ?_⟩
  rw [decompress_dense_apply FB (densePack ZB) 0 (by norm_num [BITMAP_SIZE]),
    densePack_getD ZB 0 (by norm_num [BITMAP_SIZE])]
  simp [FB, ZB]

/-! Concrete evaluation of the two traces. -/

theorem u2_eq :
    u2 = ⟨[⟨1, (0, 0), FB, [⟨1, none, false⟩, ⟨0, some [0], true⟩]⟩], 2⟩ := rfl

theorem u3_eq :
    u3 = ⟨[⟨2, (0, 1), FB,
      [⟨1, some (densePack ZB), false⟩, ⟨0, some [0], true⟩]⟩], 2⟩ := by
  show insert_bitmap_content u2 0 1 ZB = _
  rw [u2_eq]
  simp [insert_bitmap_content, materialize_group, chain_after, install_node, walk_chain, propagate, compress_zero_ff]

theorem t3_eq :
    t3 = ⟨[⟨1, (0, 0), ZB,
      [⟨2, none, false⟩, ⟨1, none, false⟩, ⟨0, some [0], true⟩]⟩], 3⟩ := rfl

theorem t4_eq :
    t4 = ⟨[⟨2, (0, 2), ZB,
      [⟨2, some [0], true⟩, ⟨1, none, false⟩, ⟨0, some [0], true⟩]⟩], 3⟩ := by
  show insert_bitmap_content t3 0 2 ZB = _
  rw [t3_eq]
  simp [insert_bitmap_content, materialize_group, chain_after, install_node, walk_chain, propagate, compress_zero_zero]

/-- C1: reconstruction fails for a fully completed insert.  CSN 0 opens a
group with the all-ones reference; CSN 1 is inserted and fully materialized
with the all-zero image, which takes the dense encoding; the subsequent
`get_bitmap(1)` returns true but fills the output with byte `0xFF` at
index 0 instead of the submitted `0x00`: the code contradicts the spec's
reconstruction property (and the benchmark's own memcmp oracle) at this
input. -/
theorem C1_reconstruction_fails :
    (get_bitmap u3 1 ZB).1 = true ∧ (get_bitmap u3 1 ZB).2 0 ≠ ZB 0 := by
  have hgen : ∀ p : List Nat,
      (get_bitmap ⟨[⟨2, (0, 1), FB, [⟨1, some p, false⟩, ⟨0, some [0], true⟩]⟩], 2⟩ 1 ZB).1
          = true ∧
      (get_bitmap ⟨[⟨2, (0, 1), FB, [⟨1, some p, false⟩, ⟨0, some [0], true⟩]⟩], 2⟩ 1 ZB).2
          = decompress_bitmap FB p false := by
    intro p
    simp [get_bitmap, find_ref, find_node]
  rw [u3_eq]
  obtain ⟨h1, h2⟩ := hgen (densePack ZB)
  rw [h1, h2]
  refine ⟨rfl, ?_⟩
  rw [decompress_dense_apply FB (densePack ZB) 0 (by norm_num [BITMAP_SIZE]),
    densePack_getD ZB 0 (by norm_num [BITMAP_SIZE])]
  simp [FB, ZB]

/-- C4: a still-unmaterialized placeholder with matching csn is NOT
reported as not-found.  In trace `t4` (CSN 1 still a placeholder, CSN 2
materialized so the group range is `[0, 2]`), `get_bitmap(1)` matches the
placeholder and decompresses its null payload — the source dereferences a
null pointer here; the model reads the null payload as zero words, so the
call returns true with the group reference (a decoded zero difference),
contradicting the claim that it returns false. -/
theorem C4_placeholder_not_refused :
    (get_bitmap t4 1 FB).1 = true ∧
    (get_bitmap t4 1 FB).2 0 = ZB 0 ∧
    find_node (t4.refs.getD 0 default).chain 1 = some ⟨1, none, false⟩ := by
  have hpair : (get_bitmap t4 1 FB).1 = true ∧
      (get_bitmap t4 1 FB).2 = decompress_bitmap ZB [] false := by
    rw [t4_eq]
    simp [get_bitmap, find_ref, find_node]
  refine ⟨hpair.1, ?_, ?_⟩
  · rw [hpair.2, decompress_dense_apply ZB [] 0 (by norm_num [BITMAP_SIZE])]
    simp [ZB]
  · rw [t4_eq]
    simp [find_node]

/-- C5 counterexample: after trace `t4` (placeholders for CSNs 1 and 2 on
a group opened at CSN 0, then CSN 2 materialized first), the head group's
`csn_range.hi` is 2 even though CSN 1 is still an unmaterialized
placeholder below it — `hi` has advanced to a value at least the csn of a
still-unmaterialized placeholder, and it differs from the value
`max(previous hi 0, csn 0 of the newest materialized delta older than the
materialized node)` that the claim's formula predicts. -/
theorem C5_hi_overtakes_placeholder :
    (t4.refs.getD 0 default).csn_range.2 = 2 ∧
    (t4.refs.getD 0 default).chain.getD 1 default = ⟨1, none, false⟩ ∧
    ((t4.refs.getD 0 default).chain.getD 1 default).bitmap_csn ≤
      (t4.refs.getD 0 default).csn_range.2 ∧
    (t4.refs.getD 0 default).csn_range.2 ≠ max 0 0 := by
  rw [t4_eq]
  refine ⟨rfl, rfl, by decide, by decide⟩

/-- C10: whenever `get_bitmap` returns false the caller's output buffer is
returned unmodified; the source writes the buffer only inside
`decompress_bitmap` on the success path. -/
theorem C10_out_unmodified (s : CState) (r : Int) (out buf : Nat → Nat)
    (h : get_bitmap s r out = (false, buf)) : buf = out := by
  unfold get_bitmap at h
  split at h
  · simp at h
    exact h.symm
  · split at h
    · simp at h
      exact h.symm
    · simp at h

/-- C10 witness: in trace `t4` the read of CSN 7 (above the head group's
range) fails and hands back the untouched buffer. -/
theorem C10_out_unmodified_witness : (get_bitmap t4 7 FB).2 = FB :=
  C10_out_unmodified t4 7 FB ((get_bitmap t4 7 FB).2) (by rw [t4_eq]; rfl)

/-- C8: the asymmetric routing rule of `get_bitmap`: a request below a
group's `lo` advances to the next older group, a request above a group's
`hi` (and not below its `lo`) terminates with not-found; consequently a
request below the `lo` of every group returns false with the output buffer
untouched (no payload is decoded). -/
theorem C8_read_routing (s : CState) (r : Int) (out : Nat → Nat)
    (h : ∀ g ∈ s.refs, r < g.csn_range.1) :
    get_bitmap s r out = (false, out) ∧
    (∀ (g : BitmapRef) (rest : List BitmapRef) (q : Int),
      q < g.csn_range.1 → find_ref (g :: rest) q = find_ref rest q) ∧
    (∀ (g : BitmapRef) (rest : List BitmapRef) (q : Int),
      g.csn_range.1 ≤ q → g.csn_range.2 < q → find_ref (g :: rest) q = none) := by
  refine ⟨?_, ?_, ?_⟩
  · have hnone : ∀ l : List BitmapRef, (∀ g ∈ l, r < g.csn_range.1) →
        find_ref l r = none := by
      intro l
      induction l with
      | nil => intro _; rfl
      | cons g rest ih =>
        intro hl
        have hg : r < g.csn_range.1 := hl g (by simp)
        show (if r < g.csn_range.1 then find_ref rest r
              else if g.csn_range.2 < r then none else some g) = none
        rw [if_pos hg]
        exact ih (fun g2 hg2 => hl g2 (by simp [hg2]))
    simp [get_bitmap, hnone s.refs h]
  · intro g rest q hq
    show (if q < g.csn_range.1 then find_ref rest q
          else if g.csn_range.2 < q then none else some g) = find_ref rest q
    rw [if_pos hq]
  · intro g rest q h1 h2
    show (if q < g.csn_range.1 then find_ref rest q
          else if g.csn_range.2 < q then none else some g) = none
    rw [if_neg (not_lt.mpr h1), if_pos h2]

/-- C8 witness: after the first insert (group opened at CSN 0), the read
of CSN -1 — below the `lo` of every group — returns false and leaves the
buffer untouched. -/
theorem C8_read_routing_witness :
    get_bitmap u1 (-1) ZB = (false, ZB) :=
  (C8_read_routing u1 (-1) ZB (by
    intro g hg
    have hu : u1 = ⟨[⟨1, (0, 0), FB, [⟨0, some [0], true⟩]⟩], 1⟩ := rfl
    rw [hu] at hg
    simp at hg
    rw [hg]
    decide)).1

/-! Claim C7: the sorted-array union. -/

theorem mem_merge (la lb : List Nat) (x : Nat) :
    x ∈ merge la lb ↔ x ∈ la ∨ x ∈ lb := by
  induction la, lb using merge.induct with
  | case1 b => simp [merge]
  | case2 a as => simp [merge]
  | case3 a as b bs h ih =>
    rw [show merge (a :: as) (b :: bs) = a :: merge as (b :: bs) by
      rw [merge, if_pos h]]
    simp [ih]
    tauto
  | case4 a as b bs h1 h2 ih =>
    rw [show merge (a :: as) (b :: bs) = b :: merge (a :: as) bs by
      rw [merge, if_neg h1, if_pos h2]]
    simp [ih]
    tauto
  | case5 a as b bs h1 h2 ih =>
    rw [show merge (a :: as) (b :: bs) = a :: merge as bs by
      rw [merge, if_neg h1, if_neg h2]]
    have hab : a = b := by omega
    simp [ih, hab]
    tauto

theorem merge_pairwise (la lb : List Nat)
    (ha : la.Pairwise (· < ·)) (hb : lb.Pairwise (· < ·)) :
    (merge la lb).Pairwise (· < ·) := by
  induction la, lb using merge.induct with
  | case1 b => simpa [merge] using hb
  | case2 a as => simpa [merge] using ha
  | case3 a as b bs h ih =>
    rw [show merge (a :: as) (b :: bs) = a :: merge as (b :: bs) by
      rw [merge, if_pos h]]
    rw [List.pairwise_cons] at ha ⊢
    refine ⟨?_, ih ha.2 hb⟩
    intro z hz
    rcases (mem_merge as (b :: bs) z).mp hz with hz1 | hz2
    · exact ha.1 z hz1
    · rcases List.mem_cons.mp hz2 with rfl | hz3
      · exact h
      · have := (List.pairwise_cons.mp hb).1 z hz3
        omega
  | case4 a as b bs h1 h2 ih =>
    rw [show merge (a :: as) (b :: bs) = b :: merge (a :: as) bs by
      rw [merge, if_neg h1, if_pos h2]]
    rw [List.pairwise_cons] at hb ⊢
    refine ⟨?_, ih ha hb.2⟩
    intro z hz
    rcases (mem_merge (a :: as) bs z).mp hz with hz1 | hz2
    · rcases List.mem_cons.mp hz1 with rfl | hz3
      · exact h2
      · have := (List.pairwise_cons.mp ha).1 z hz3
        omega
    · exact hb.1 z hz2
  | case5 a as b bs h1 h2 ih =>
    rw [show merge (a :: as) (b :: bs) = a :: merge as bs by
      rw [merge, if_neg h1, if_neg h2]]
    rw [List.pairwise_cons] at ha hb ⊢
    refine ⟨?_, ih ha.2 hb.2⟩
    intro z hz
    rcases (mem_merge as bs z).mp hz with hz1 | hz2
    · exact ha.1 z hz1
    · have := hb.1 z hz2
      omega

/-- C7: on two well-formed sparse payloads (count in slot 0 followed by a
strictly ascending position list), `union_sorted_array` produces the
strictly ascending, duplicate-free set union of the two position lists,
with the new element count in slot 0.  The first operand is replaced by
this value; the second operand is only read (the model is pure, and the
source writes only through the first operand). -/
theorem C7_union_sorted (la lb : List Nat)
    (ha : la.Pairwise (· < ·)) (hb : lb.Pairwise (· < ·)) :
    union_sorted_array (la.length :: la) (lb.length :: lb)
      = (merge la lb).length :: merge la lb ∧
    (merge la lb).Pairwise (· < ·) ∧
    (merge la lb).Nodup ∧
    (∀ x, x ∈ merge la lb ↔ x ∈ la ∨ x ∈ lb) := by
  have hp := merge_pairwise la lb ha hb
  refine ⟨?_, hp, hp.imp (fun h => Nat.ne_of_lt h), fun x => mem_merge la lb x⟩
  simp [union_sorted_array, List.getD_cons_zero, List.take_length]

/-- C7 witness: the union of the sparse payloads with position lists
`[1, 3]` and `[2, 3]` is `[1, 2, 3]` with count 3 — the shared position 3
collapses to one element. -/
theorem C7_union_sorted_witness :
    union_sorted_array [2, 1, 3] [2, 2, 3] = [3, 1, 2, 3] ∧
    List.Pairwise (· < ·) [1, 2, 3] := by
  have h := C7_union_sorted [1, 3] [2, 3] (by decide) (by decide)
  have hm : merge [1, 3] [2, 3] = [1, 2, 3] := by simp [merge]
  have h1 := h.1
  rw [hm] at h1
  exact ⟨h1, by decide⟩

/-! Claim C3: the encoding choice and the sparse payload shape. -/

theorem filterMap_if_some {α β : Type} (f : α → β) (p : α → Bool) (l : List α) :
    l.filterMap (fun a => if p a then some (f a) else none) = (l.filter p).map f := by
  induction l with
  | nil => rfl
  | cons a l ih =>
    cases h : p a <;> simp [List.filterMap_cons, List.filter_cons, h, ih]

theorem bytePositions_eq (i t : Nat) :
    bytePositions i t =
      ((List.range 8).filter (fun j => t.testBit (7 - j))).map (fun j => i * 8 + j) :=
  filterMap_if_some _ _ _

theorem bytePositions_length (i t : Nat) :
    (bytePositions i t).length = popcount_byte t := by
  rw [bytePositions_eq, List.length_map]
  rfl

theorem diffPositions_length (temp : Nat → Nat) :
    (diffPositions temp).length = total_cnt_of temp := by
  unfold diffPositions total_cnt_of
  rw [List.length_join, List.map_map]
  exact congrArg List.sum
    (List.map_congr_left (fun i _ => bytePositions_length i (temp i)))

theorem mem_bytePositions (i t x : Nat) :
    x ∈ bytePositions i t ↔ ∃ j, j < 8 ∧ x = i * 8 + j ∧ (t.testBit (7 - j) = true) := by
  rw [bytePositions_eq]
  simp only [List.mem_map, List.mem_filter, List.mem_range]
  constructor
  · rintro ⟨j, ⟨hj, hb⟩, rfl⟩
    exact ⟨j, hj, rfl, hb⟩
  · rintro ⟨j, hj, rfl, hb⟩
    exact ⟨j, ⟨hj, hb⟩, rfl⟩

theorem bytePositions_pairwise (i t : Nat) :
    (bytePositions i t).Pairwise (· < ·) := by
  rw [bytePositions_eq, List.pairwise_map]
  exact ((List.pairwise_lt_range 8).filter _).imp (fun h => by omega)

theorem mem_bytePositions_bounds (i t x : Nat) (h : x ∈ bytePositions i t) :
    i * 8 ≤ x ∧ x < i * 8 + 8 := by
  rcases (mem_bytePositions i t x).mp h with ⟨j, hj, rfl, _⟩
  omega

theorem diffPositions_pairwise (temp : Nat → Nat) :
    (diffPositions temp).Pairwise (· < ·) := by
  unfold diffPositions
  rw [List.pairwise_join]
  constructor
  · intro l hl
    rcases List.mem_map.mp hl with ⟨i, _, rfl⟩
    exact bytePositions_pairwise i (temp i)
  · rw [List.pairwise_map]
    refine (List.pairwise_lt_range BITMAP_SIZE).imp ?_
    intro a b hab x hx y hy
    have hxa := mem_bytePositions_bounds a (temp a) x hx
    have hyb := mem_bytePositions_bounds b (temp b) y hy
    omega

theorem mem_diffPositions (temp : Nat → Nat) (x : Nat) :
    x ∈ diffPositions temp ↔
      ∃ i, i < BITMAP_SIZE ∧ ∃ j, j < 8 ∧ x = i * 8 + j ∧
        ((temp i).testBit (7 - j) = true) := by
  unfold diffPositions
  rw [List.mem_join]
  constructor
  · rintro ⟨l, hl, hx⟩
    rcases List.mem_map.mp hl with ⟨i, hi, rfl⟩
    exact ⟨i, List.mem_range.mp hi, (mem_bytePositions i (temp i) x).mp hx⟩
  · rintro ⟨i, hi, hj⟩
    exact ⟨bytePositions i (temp i),
      List.mem_map.mpr ⟨i, List.mem_range.mpr hi, rfl⟩,
      (mem_bytePositions i (temp i) x).mpr hj⟩

/-- C3 amended: `compress_bitmap` chooses the dense encoding iff the number
of set bits of `B XOR R` is at least `BITMAP_SIZE / 16` in C integer
division, which is 468 for `BITMAP_SIZE = 7500` — not 469 as the claim
glosses it; otherwise it emits the sparse encoding, the strictly ascending
list of the positions at which `B` and `R` differ, prefixed by their
count. -/
theorem C3_encoding_choice (orig comp : Nat → Nat) :
    ((compress_bitmap orig comp).2 = false ↔
      468 ≤ total_cnt_of (xor_function orig comp)) ∧
    (total_cnt_of (xor_function orig comp) < 468 →
      (compress_bitmap orig comp).1
        = total_cnt_of (xor_function orig comp)
            :: diffPositions (xor_function orig comp)) ∧
    (diffPositions (xor_function orig comp)).Pairwise (· < ·) ∧
    total_cnt_of (xor_function orig comp)
      = (diffPositions (xor_function orig comp)).length ∧
    (∀ p, p ∈ diffPositions (xor_function orig comp) ↔
      ∃ i, i < BITMAP_SIZE ∧ ∃ j, j < 8 ∧ p = i * 8 + j ∧
        ¬ ((orig i).testBit (7 - j) = (comp i).testBit (7 - j))) := by
  have h468 : BITMAP_SIZE / 16 = 468 := by norm_num [BITMAP_SIZE]
  refine ⟨?_, ?_, diffPositions_pairwise _, (diffPositions_length _).symm, ?_⟩
  · constructor
    · intro hfalse
      by_contra hlt
      rw [compress_eq_sparse orig comp (by omega)] at hfalse
      simp at hfalse
    · intro hge
      rw [compress_eq_dense orig comp (by omega)]
  · intro hlt
    rw [compress_eq_sparse orig comp (by omega)]
  · intro p
    rw [mem_diffPositions]
    constructor
    · rintro ⟨i, hi, j, hj, rfl, hb⟩
      refine ⟨i, hi, j, hj, rfl, ?_⟩
      rw [xor_function] at hb
      rw [Nat.testBit_xor] at hb
      intro hEq
      rw [hEq] at hb
      simp at hb
    · rintro ⟨i, hi, j, hj, rfl, hne⟩
      refine ⟨i, hi, j, hj, rfl, ?_⟩
      show ((xor_function orig comp) i).testBit (7 - j) = true
      rw [xor_function, Nat.testBit_xor]
      cases horig : (orig i).testBit (7 - j) <;>
        cases hcomp : (comp i).testBit (7 - j) <;>
          simp_all

theorem sum_map_range_step (n m c : Nat) (h : m ≤ n) :
    ((List.range n).map (fun i => if i < m then c else 0)).sum = m * c := by
  induction n with
  | zero =>
    have hm : m = 0 := Nat.le_zero.mp h
    simp [hm]
  | succ n ih =>
    by_cases hm : m ≤ n
    · rw [List.range_succ, List.map_append, List.sum_append, ih hm]
      simp [Nat.not_lt.mpr hm]
    · have hm2 : m = n + 1 := by omega
      subst hm2
      have hmap : (List.range (n + 1)).map (fun i => if i < n + 1 then c else 0)
          = (List.range (n + 1)).map (fun _ => c) :=
        List.map_congr_left (fun i hi => by simp [List.mem_range.mp hi])
      rw [hmap, sum_map_range_const]

theorem xor_B468_ZB : xor_function B468 ZB = B468 := by
  funext i
  simp [xor_function, ZB]

theorem total_cnt_B468 : total_cnt_of B468 = 468 := by
  have h : ∀ i ∈ List.range BITMAP_SIZE,
      popcount_byte (B468 i) = if i < 117 then 4 else 0 := by
    intro i _
    by_cases hi : i < 117
    · simp only [B468, if_pos hi]
      decide
    · simp only [B468, if_neg hi]
      decide
  unfold total_cnt_of
  rw [List.map_congr_left h, sum_map_range_step BITMAP_SIZE 117 4 (by norm_num [BITMAP_SIZE])]

/-- C3 counterexample: a difference of exactly 468 set bits (below the
spec's glossed threshold of 469) already takes the DENSE encoding, because
the source compares against `BITMAP_SIZE / 16 = 7500 / 16 = 468` in C
integer division. -/
theorem C3_threshold_468_counterexample :
    total_cnt_of (xor_function B468 ZB) = 468 ∧
    (compress_bitmap B468 ZB).2 = false ∧
    ¬ 469 ≤ total_cnt_of (xor_function B468 ZB) := by
  have ht : total_cnt_of (xor_function B468 ZB) = 468 := by
    rw [xor_B468_ZB, total_cnt_B468]
  refine ⟨ht, ?_, by omega⟩
  rw [compress_eq_dense B468 ZB (by rw [ht]; norm_num [BITMAP_SIZE])]

/-- C3 witness: on identical images the difference count is 0, below the
threshold, and the sparse payload (count followed by the position list) is
emitted. -/
theorem C3_encoding_choice_witness :
    total_cnt_of (xor_function ZB ZB) < 468 ∧
    (compress_bitmap ZB ZB).1
      = total_cnt_of (xor_function ZB ZB) :: diffPositions (xor_function ZB ZB) := by
  have hc : total_cnt_of (xor_function ZB ZB) = 0 := by
    rw [xor_ZB_ZB, total_cnt_const, popcount_byte_0, Nat.mul_zero]
  exact ⟨by omega, (C3_encoding_choice ZB ZB).2.1 (by omega)⟩

/-! Case characterizations of the two insert operations, and length
preservation of materialization. -/

theorem insert_null_state_create (s : CState) (c : Int) (B : Nat → Nat)
    (h : s.head_bitmap_cnt = MAX_COMPRESS_NUM) :
    (insert_null s c B).1 =
      { refs := ⟨1, (c, c), B, [⟨c, some [0], true⟩]⟩ :: s.refs,
        head_bitmap_cnt := 1 } := by
  unfold insert_null
  rw [if_pos h]

theorem insert_null_handle_create (s : CState) (c : Int) (B : Nat → Nat)
    (h : s.head_bitmap_cnt = MAX_COMPRESS_NUM) :
    (insert_null s c B).2 = none := by
  unfold insert_null
  rw [if_pos h]

theorem insert_null_state_grow (s : CState) (c : Int) (B : Nat → Nat)
    (g : BitmapRef) (rest : List BitmapRef)
    (h : ¬ s.head_bitmap_cnt = MAX_COMPRESS_NUM) (hr : s.refs = g :: rest) :
    (insert_null s c B).1 =
      { refs := { g with chain := ⟨c, none, false⟩ :: g.chain } :: rest,
        head_bitmap_cnt := s.head_bitmap_cnt + 1 } := by
  unfold insert_null
  rw [if_neg h, hr]

theorem insert_null_state_empty (s : CState) (c : Int) (B : Nat → Nat)
    (h : ¬ s.head_bitmap_cnt = MAX_COMPRESS_NUM) (hr : s.refs = []) :
    (insert_null s c B).1 = s := by
  unfold insert_null
  rw [if_neg h, hr]

theorem insert_bitmap_content_none (s : CState) (gi ni : Nat) (B : Nat → Nat)
    (h : s.refs.get? (s.refs.length - 1 - gi) = none) :
    insert_bitmap_content s gi ni B = s := by
  unfold insert_bitmap_content
  rw [h]

theorem insert_bitmap_content_some (s : CState) (gi ni : Nat) (B : Nat → Nat)
    (g : BitmapRef) (h : s.refs.get? (s.refs.length - 1 - gi) = some g) :
    insert_bitmap_content s gi ni B =
      { s with refs := s.refs.set (s.refs.length - 1 - gi) (materialize_group g ni B) } := by
  unfold insert_bitmap_content
  rw [h]

theorem install_node_length (ch : List CompressedBitmap) (pos : Nat)
    (payload : List Nat) (isc : Bool) :
    (install_node ch pos payload isc).length = ch.length :=
  List.length_set ch pos _

theorem propagate_length (payload : List Nat) (ch : List CompressedBitmap)
    (st pos : Nat) :
    (propagate payload ch st pos).length = ch.length := by
  unfold propagate
  generalize pos - st = m
  induction m with
  | zero => rfl
  | succ n ih =>
    rw [List.range_succ, List.foldl_append, List.foldl_cons, List.foldl_nil]
    show (List.set _ _ _).length = ch.length
    rw [List.length_set, ih]

theorem chain_after_length (ch : List CompressedBitmap) (pos : Nat)
    (payload : List Nat) (isc : Bool) :
    (chain_after ch pos payload isc).length = ch.length := by
  simp only [chain_after]
  split
  · exact install_node_length ch pos payload isc
  · rw [propagate_length, install_node_length]

theorem materialize_group_chain_length (g : BitmapRef) (ni : Nat) (B : Nat → Nat) :
    (materialize_group g ni B).chain.length = g.chain.length :=
  chain_after_length g.chain _ _ _

theorem materialize_group_lo (g : BitmapRef) (ni : Nat) (B : Nat → Nat) :
    (materialize_group g ni B).csn_range.1 = g.csn_range.1 := rfl

theorem materialize_group_hi_le (g : BitmapRef) (ni : Nat) (B : Nat → Nat) :
    g.csn_range.2 ≤ (materialize_group g ni B).csn_range.2 :=
  le_max_left _ _

/-! Claim C6: the group cap. -/

theorem capInv_init : CapInv initState := by
  refine ⟨by norm_num [initState, MAX_COMPRESS_NUM], fun _ => rfl, ?_, ?_⟩
  · intro g hg
    simp [initState] at hg
  · intro g rest h
    simp [initState] at h

theorem capInv_null (s : CState) (c : Int) (B : Nat → Nat) (h : CapInv s) :
    CapInv (insert_null s c B).1 := by
  obtain ⟨h1, h2, h3, h4⟩ := h
  by_cases hc : s.head_bitmap_cnt = MAX_COMPRESS_NUM
  · rw [insert_null_state_create s c B hc]
    refine ⟨by norm_num [MAX_COMPRESS_NUM], by intro hh; simp at hh, ?_, ?_⟩
    · intro g hg
      rcases List.mem_cons.mp hg with rfl | hg2
      · norm_num [MAX_COMPRESS_NUM]
      · exact h3 g hg2
    · intro g rest heq
      injection heq with e1 e2
      rw [← e1]
      rfl
  · cases hr : s.refs with
    | nil =>
      rw [insert_null_state_empty s c B hc hr]
      exact ⟨h1, h2, h3, h4⟩
    | cons g rest =>
      have hlen : g.chain.length = s.head_bitmap_cnt := h4 g rest hr
      have h19 : s.head_bitmap_cnt ≤ 9 := by
        simpa [MAX_COMPRESS_NUM] using h1
      have hc9 : ¬ s.head_bitmap_cnt = 9 := by
        simpa [MAX_COMPRESS_NUM] using hc
      rw [insert_null_state_grow s c B g rest hc hr]
      refine ⟨by simp [MAX_COMPRESS_NUM]; omega, by intro hh; simp at hh, ?_, ?_⟩
      · intro g2 hg2
        rcases List.mem_cons.mp hg2 with rfl | hg3
        · show (⟨c, none, false⟩ :: g.chain).length ≤ MAX_COMPRESS_NUM
          simp [List.length_cons, MAX_COMPRESS_NUM]
          omega
        · exact h3 g2 (hr ▸ List.mem_cons_of_mem g hg3)
      · intro g2 rest2 heq
        injection heq with e1 e2
        rw [← e1]
        show (⟨c, none, false⟩ :: g.chain).length = s.head_bitmap_cnt + 1
        simp [List.length_cons, hlen]

theorem capInv_content (s : CState) (gi ni : Nat) (B : Nat → Nat) (h : CapInv s) :
    CapInv (insert_bitmap_content s gi ni B) := by
  obtain ⟨h1, h2, h3, h4⟩ := h
  cases hg : s.refs.get? (s.refs.length - 1 - gi) with
  | none =>
    rw [insert_bitmap_content_none s gi ni B hg]
    exact ⟨h1, h2, h3, h4⟩
  | some g =>
    have hmem : g ∈ s.refs := List.get?_mem hg
    rw [insert_bitmap_content_some s gi ni B g hg]
    refine ⟨h1, ?_, ?_, ?_⟩
    · intro hh
      exact h2 ((List.set_eq_nil _ _).mp hh)
    · intro g2 hg2
      rcases List.mem_or_eq_of_mem_set hg2 with hg3 | rfl
      · exact h3 g2 hg3
      · rw [materialize_group_chain_length]
        exact h3 g hmem
    · intro g2 rest2 heq
      cases hr : s.refs with
      | nil =>
        rw [hr] at heq
        simp at heq
      | cons ghead tl =>
        rw [hr] at heq hg
        have heq2 : (ghead :: tl).set ((ghead :: tl).length - 1 - gi)
            (materialize_group g ni B) = g2 :: rest2 := heq
        cases hidx : (ghead :: tl).length - 1 - gi with
        | zero =>
          rw [hidx, List.set_cons_zero] at heq2
          injection heq2 with e1 e2
          rw [← e1, materialize_group_chain_length]
          have hgg : g = ghead := by
            rw [hidx] at hg
            simpa using hg.symm
          rw [hgg]
          exact h4 ghead tl hr
        | succ k =>
          rw [hidx, List.set_cons_succ] at heq2
          injection heq2 with e1 e2
          rw [← e1]
          exact h4 ghead tl hr

theorem reachable_capInv (s : CState) (h : Reachable s) : CapInv s := by
  induction h with
  | init => exact capInv_init
  | step_null s c B _ ih => exact capInv_null s c B ih
  | step_content s gi ni B _ ih => exact capInv_content s gi ni B ih

/-- C6: in every reachable state no group's chain exceeds
`MAX_COMPRESS_NUM = 9` delta nodes, and once the head group's chain holds
exactly 9 nodes the next `insert_null` opens a new group — whose reference
is the inserted image and whose chain is the single opening delta —
prepended in front of the untouched existing groups. -/
theorem C6_group_cap (s : CState) (hs : Reachable s) :
    (∀ g ∈ s.refs, g.chain.length ≤ MAX_COMPRESS_NUM) ∧
    (∀ (g : BitmapRef) (rest : List BitmapRef) (c : Int) (B : Nat → Nat),
      s.refs = g :: rest → g.chain.length = MAX_COMPRESS_NUM →
      (insert_null s c B).2 = none ∧
      (insert_null s c B).1.refs
        = ⟨1, (c, c), B, [⟨c, some [0], true⟩]⟩ :: s.refs) := by
  obtain ⟨h1, h2, h3, h4⟩ := reachable_capInv s hs
  refine ⟨h3, ?_⟩
  intro g rest c B hr hcap
  have hcnt : s.head_bitmap_cnt = MAX_COMPRESS_NUM := by
    rw [h4 g rest hr] at hcap
    exact hcap
  exact ⟨insert_null_handle_create s c B hcnt,
    by rw [insert_null_state_create s c B hcnt]⟩

/-- C6 witness: after nine inserts into one group (trace `r8`), every group
is within the cap and the tenth insert (CSN 9) opens a new group in front
of the full one. -/
theorem C6_group_cap_witness :
    (∀ g ∈ r8.refs, g.chain.length ≤ MAX_COMPRESS_NUM) ∧
    ((insert_null r8 9 ZB).2 = none ∧
      (insert_null r8 9 ZB).1.refs
        = ⟨1, (9, 9), ZB, [⟨9, some [0], true⟩]⟩ :: r8.refs) := by
  have hreach : Reachable r8 :=
    Reachable.step_null r7 8 ZB (Reachable.step_null r6 7 ZB
      (Reachable.step_null r5 6 ZB (Reachable.step_null r4 5 ZB
        (Reachable.step_null r3 4 ZB (Reachable.step_null r2 3 ZB
          (Reachable.step_null r1 2 ZB (Reachable.step_null r0 1 ZB
            (Reachable.step_null initState 0 ZB Reachable.init))))))))
  have h := C6_group_cap r8 hreach
  refine ⟨h.1, h.2 (r8.refs.getD 0 default) [] 9 ZB rfl rfl⟩

/-! Claim C9: range monotonicity. -/

theorem getD_of_get? {α : Type} [Inhabited α] (l : List α) (n : Nat) (a : α)
    (h : l.get? n = some a) : l.getD n default = a := by
  rw [List.getD_eq_get?, h]
  rfl

theorem getD_set_self {α : Type} [Inhabited α] (l : List α) (n : Nat) (a : α)
    (h : n < l.length) : (l.set n a).getD n default = a := by
  rw [List.getD_eq_get?, List.get?_set_eq, List.get?_eq_get h]
  rfl

theorem getD_set_other {α : Type} [Inhabited α] (l : List α) (m n : Nat) (a : α)
    (h : m ≠ n) : (l.set m a).getD n default = l.getD n default := by
  rw [List.getD_eq_get?, List.get?_set_ne a l h, List.getD_eq_get?]

/-- C9: `insert_bitmap_content` never changes any group's `csn_range.lo`
and never decreases any group's `csn_range.hi`; `insert_null` changes no
existing group's range at all; and a group is created with
`csn_range = (c, c)` where `c` is the opening delta's csn.  Groups are
addressed by their stable index from the oldest end. -/
theorem C9_monotone_range (s : CState) (i gi ni : Nat) (c : Int) (B : Nat → Nat)
    (hil : i < s.refs.length) :
    ((groupFromOld (insert_bitmap_content s gi ni B) i).csn_range.1
        = (groupFromOld s i).csn_range.1 ∧
      (groupFromOld s i).csn_range.2
        ≤ (groupFromOld (insert_bitmap_content s gi ni B) i).csn_range.2) ∧
    ((groupFromOld (insert_null s c B).1 i).csn_range.1
        = (groupFromOld s i).csn_range.1 ∧
      (groupFromOld (insert_null s c B).1 i).csn_range.2
        = (groupFromOld s i).csn_range.2) ∧
    (s.head_bitmap_cnt = MAX_COMPRESS_NUM →
      ((insert_null s c B).1.refs.headD default).csn_range = (c, c)) := by
  refine ⟨?_, ?_, ?_⟩
  · cases hg : s.refs.get? (s.refs.length - 1 - gi) with
    | none =>
      rw [insert_bitmap_content_none s gi ni B hg]
      exact ⟨rfl, le_refl _⟩
    | some g =>
      rw [insert_bitmap_content_some s gi ni B g hg]
      by_cases hidx : s.refs.length - 1 - gi = s.refs.length - 1 - i
      · have hgd : groupFromOld s i = g := by
          unfold groupFromOld
          rw [← hidx]
          exact getD_of_get? s.refs _ g hg
        have hlen : s.refs.length - 1 - gi < s.refs.length := by
          rcases List.get?_eq_some.mp hg with ⟨hlt, _⟩
          exact hlt
        have hset : groupFromOld
            { s with refs := s.refs.set (s.refs.length - 1 - gi) (materialize_group g ni B) } i
              = materialize_group g ni B := by
          unfold groupFromOld
          show (s.refs.set (s.refs.length - 1 - gi) (materialize_group g ni B)).getD
            ((s.refs.set (s.refs.length - 1 - gi) (materialize_group g ni B)).length - 1 - i)
              default = _
          rw [List.length_set, ← hidx]
          exact getD_set_self s.refs _ _ hlen
        rw [hset, hgd]
        exact ⟨materialize_group_lo g ni B, materialize_group_hi_le g ni B⟩
      · have hset : groupFromOld
            { s with refs := s.refs.set (s.refs.length - 1 - gi) (materialize_group g ni B) } i
              = groupFromOld s i := by
          unfold groupFromOld
          show (s.refs.set (s.refs.length - 1 - gi) (materialize_group g ni B)).getD
            ((s.refs.set (s.refs.length - 1 - gi) (materialize_group g ni B)).length - 1 - i)
              default = _
          rw [List.length_set]
          exact getD_set_other s.refs _ _ _ hidx
        rw [hset]
        exact ⟨rfl, le_refl _⟩
  · by_cases hc : s.head_bitmap_cnt = MAX_COMPRESS_NUM
    · rw [insert_null_state_create s c B hc]
      have hshift : groupFromOld
          { refs := (⟨1, (c, c), B, [⟨c, some [0], true⟩]⟩ : BitmapRef) :: s.refs,
            head_bitmap_cnt := 1 } i = groupFromOld s i := by
        unfold groupFromOld
        show ((⟨1, (c, c), B, [⟨c, some [0], true⟩]⟩ : BitmapRef) :: s.refs).getD
          (((⟨1, (c, c), B, [⟨c, some [0], true⟩]⟩ : BitmapRef) :: s.refs).length - 1 - i)
            default = _
        rw [List.length_cons]
        have harith : s.refs.length + 1 - 1 - i = (s.refs.length - 1 - i) + 1 := by omega
        rw [harith, List.getD_cons_succ]
      rw [hshift]
      exact ⟨rfl, rfl⟩
    · cases hr : s.refs with
      | nil =>
        rw [insert_null_state_empty s c B hc hr]
        exact ⟨rfl, rfl⟩
      | cons g rest =>
        rw [insert_null_state_grow s c B g rest hc hr]
        have hgfo : groupFromOld s i
            = (g :: rest).getD ((g :: rest).length - 1 - i) default := by
          unfold groupFromOld
          rw [hr]
        have key : ∀ j : Nat,
            ((({ g with chain := (⟨c, none, false⟩ : CompressedBitmap) :: g.chain }
                : BitmapRef) :: rest).getD j default).csn_range
              = ((g :: rest).getD j default).csn_range := by
          intro j
          cases j with
          | zero => rfl
          | succ k => rfl
        rw [hgfo]
        exact ⟨congrArg (fun p => p.1) (key _), congrArg (fun p => p.2) (key _)⟩
  · intro hc
    rw [insert_null_state_create s c B hc]
    rfl

/-- C9 witness: in the one-group state `t3`, both operations preserve the
group's `lo` and do not decrease its `hi`. -/
theorem C9_monotone_range_witness :
    (groupFromOld (insert_bitmap_content t3 0 2 ZB) 0).csn_range.1
        = (groupFromOld t3 0).csn_range.1 ∧
    (groupFromOld t3 0).csn_range.2
        ≤ (groupFromOld (insert_bitmap_content t3 0 2 ZB) 0).csn_range.2 := by
  have h := C9_monotone_range t3 0 0 2 5 ZB (by rw [t3_eq]; norm_num)
  exact h.1

/-! Claim C5: the actual rule by which `csn_range.hi` advances. -/

theorem walk_chain_concat (l : List CompressedBitmap) (nb : CompressedBitmap)
    (i : Nat) (acc : Int × Option Nat) :
    walk_chain (l ++ [nb]) i acc =
      match nb.compressed_bitmap with
      | none => (-1, none)
      | some _ => (nb.bitmap_csn, some (i + l.length)) := by
  induction l generalizing i acc with
  | nil =>
    cases h : nb.compressed_bitmap <;> simp [walk_chain, h]
  | cons hd tl ih =>
    have step : walk_chain ((hd :: tl) ++ [nb]) i acc
        = walk_chain (tl ++ [nb]) (i + 1)
            (match hd.compressed_bitmap with
             | none => (-1, none)
             | some _ => (hd.bitmap_csn, some i)) := rfl
    rw [step, ih]
    cases h : nb.compressed_bitmap with
    | none => rfl
    | some p =>
      simp only [List.length_cons, Prod.mk.injEq, Option.some.injEq]
      exact ⟨trivial, by omega⟩

theorem install_node_getD (ch : List CompressedBitmap) (pos : Nat)
    (payload : List Nat) (isc : Bool) (hpos : pos < ch.length) :
    (install_node ch pos payload isc).getD pos default
      = { ch.getD pos default with
          compressed_bitmap := some payload, is_compressed := isc } := by
  unfold install_node
  exact getD_set_self ch pos _ hpos

theorem tc_eq_hi_candidate (ch : List CompressedBitmap) (pos : Nat)
    (payload : List Nat) (isc : Bool) (hpos : pos < ch.length) :
    (if (walk_chain ((install_node ch pos payload isc).take pos) 0 (-1, none)).1 = -1
     then ((install_node ch pos payload isc).getD pos default).bitmap_csn
     else (walk_chain ((install_node ch pos payload isc).take pos) 0 (-1, none)).1)
      = hi_candidate ch pos := by
  cases pos with
  | zero =>
    rw [List.take_zero]
    show (if (-1 : Int) = -1
      then ((install_node ch 0 payload isc).getD 0 default).bitmap_csn
      else (-1 : Int)) = hi_candidate ch 0
    rw [if_pos rfl, install_node_getD ch 0 payload isc hpos]
    unfold hi_candidate
    rw [if_pos rfl]
  | succ m =>
    have hlt : m < ch.length := by omega
    have hm1 : m + 1 - 1 = m := by omega
    have h1 : (install_node ch (m + 1) payload isc)[m]? = ch[m]? := by
      unfold install_node
      exact List.getElem?_set_ne (show m + 1 ≠ m by omega)
    have h2 : ch[m]? = some (ch.getD m default) := by
      rw [List.getElem?_eq_getElem hlt, List.getD_eq_getElem?_getD,
        List.getElem?_eq_getElem hlt]
      rfl
    have htake : (install_node ch (m + 1) payload isc).take (m + 1)
        = (install_node ch (m + 1) payload isc).take m ++ [ch.getD m default] := by
      rw [List.take_succ, h1, h2]
      rfl
    have hwalk : walk_chain ((install_node ch (m + 1) payload isc).take (m + 1)) 0 (-1, none)
        = match (ch.getD m default).compressed_bitmap with
          | none => (-1, none)
          | some _ => ((ch.getD m default).bitmap_csn,
              some (0 + ((install_node ch (m + 1) payload isc).take m).length)) := by
      rw [htake, walk_chain_concat]
    have hinst : ((install_node ch (m + 1) payload isc).getD (m + 1) default).bitmap_csn
        = (ch.getD (m + 1) default).bitmap_csn := by
      rw [install_node_getD ch (m + 1) payload isc hpos]
    cases hnb : (ch.getD m default).compressed_bitmap with
    | none =>
      rw [hnb] at hwalk
      have hcand : hi_candidate ch (m + 1) = (ch.getD (m + 1) default).bitmap_csn := by
        unfold hi_candidate
        rw [if_neg (show ¬ (m + 1 = 0) by omega), hm1, hnb]
      rw [hwalk]
      show (if (-1 : Int) = -1
        then ((install_node ch (m + 1) payload isc).getD (m + 1) default).bitmap_csn
        else (-1 : Int)) = hi_candidate ch (m + 1)
      rw [if_pos rfl, hinst, hcand]
    | some p =>
      rw [hnb] at hwalk
      have hcand : hi_candidate ch (m + 1)
          = (if (ch.getD m default).bitmap_csn = -1
             then (ch.getD (m + 1) default).bitmap_csn
             else (ch.getD m default).bitmap_csn) := by
        unfold hi_candidate
        rw [if_neg (show ¬ (m + 1 = 0) by omega), hm1, hnb]
      rw [hwalk]
      show (if (ch.getD m default).bitmap_csn = -1
        then ((install_node ch (m + 1) payload isc).getD (m + 1) default).bitmap_csn
        else (ch.getD m default).bitmap_csn) = hi_candidate ch (m + 1)
      rw [hcand]
      by_cases hneg : (ch.getD m default).bitmap_csn = -1
      · rw [if_pos hneg, if_pos hneg, hinst]
      · rw [if_neg hneg, if_neg hneg]

theorem materialize_group_hi (g : BitmapRef) (ni : Nat) (B : Nat → Nat)
    (hni : ni < g.chain.length) :
    (materialize_group g ni B).csn_range.2
      = max g.csn_range.2 (hi_candidate g.chain (g.chain.length - 1 - ni)) := by
  have hpos : g.chain.length - 1 - ni < g.chain.length := by omega
  have h := tc_eq_hi_candidate g.chain (g.chain.length - 1 - ni)
    (compress_bitmap B g.complete_bitmap).1 (compress_bitmap B g.complete_bitmap).2 hpos
  exact congrArg (max g.csn_range.2) h

/-- C5 amended: after `insert_bitmap_content` materializes the node at
chain position `pos` (counted from the head), the group's `csn_range.hi`
becomes `max(previous hi, cand)` where `cand` is the csn of the chain node
immediately preceding the materialized node — the oldest of its NEWER
siblings — when that node is materialized (and its csn is not the sentinel
`-1`), and the materialized node's own csn otherwise.  The scan never
looks at deltas older than the materialized node, and `hi` may advance to
or past the csn of a still-unmaterialized placeholder (see the
counterexample). -/
theorem C5_hi_update (s : CState) (gi ni : Nat) (B : Nat → Nat) (g : BitmapRef)
    (hg : s.refs.get? (s.refs.length - 1 - gi) = some g)
    (hni : ni < g.chain.length) :
    ∃ g2, (insert_bitmap_content s gi ni B).refs.get? (s.refs.length - 1 - gi) = some g2 ∧
      g2.csn_range.2
        = max g.csn_range.2 (hi_candidate g.chain (g.chain.length - 1 - ni)) ∧
      g2.csn_range.1 = g.csn_range.1 := by
  refine ⟨materialize_group g ni B, ?_, materialize_group_hi g ni B hni,
    materialize_group_lo g ni B⟩
  rw [insert_bitmap_content_some s gi ni B g hg]
  show (s.refs.set (s.refs.length - 1 - gi) (materialize_group g ni B)).get?
    (s.refs.length - 1 - gi) = some (materialize_group g ni B)
  have hlen : s.refs.length - 1 - gi < s.refs.length := by
    rcases List.get?_eq_some.mp hg with ⟨hlt, _⟩
    exact hlt
  rw [List.get?_set_eq, List.get?_eq_get hlen]
  rfl

/-- C5 witness: materializing CSN 2 in trace `t3` (chain head, both other
nodes below it) advances `hi` from 0 to `max 0 (hi_candidate) = 2`, the
node's own csn. -/
theorem C5_hi_update_witness :
    ∃ g2, (insert_bitmap_content t3 0 2 ZB).refs.get? (t3.refs.length - 1 - 0) = some g2 ∧
      g2.csn_range.2
        = max (0 : Int) (hi_candidate
            [⟨2, none, false⟩, ⟨1, none, false⟩, ⟨0, some [0], true⟩] 0) ∧
      g2.csn_range.1 = 0 :=
  C5_hi_update t3 0 2 ZB
    ⟨1, (0, 0), ZB, [⟨2, none, false⟩, ⟨1, none, false⟩, ⟨0, some [0], true⟩]⟩
    (by rw [t3_eq]; rfl) (by norm_num)
